import Mathlib

/-!
Shallow embedding of the bit-vector core of the cpp-gadgets repository
(src/data/bits/bits.hh and src/data/bit_vector/bit_vector.hh).

A C++ value of type std::bitset<N> is modelled as a natural number v
with the invariant v < 2 ^ N; bit i of the bitset is Nat.testBit v i.
The member std::bitset::to_ullong throws std::overflow_error when any
bit at position 64 or above is set, so operations that can reach it are
modelled with Option: none is a thrown exception.
-/

/-- Machine word size used by the chunked copy: sizeof(unsigned long long) * 8. -/
def WORD_BITS : Nat := 64

/-- Number of 64-bit words needed to hold M bits: (M + 63) / 64. -/
def wordCount (M : Nat) : Nat := (M + WORD_BITS - 1) / WORD_BITS

/-- std::bitset<N> constructed from an unsigned long long scalar: the low
min(N, 64) bits of the scalar, all higher bits zero.  This embeds both the
scalar constructor and make_bitset<N>(unsigned long long src)
(bits.hh lines 42-46, bit_vector.hh lines 42-46). -/
def make_bitset_ull (N : Nat) (src : Nat) : Nat := src % 2 ^ min N WORD_BITS

/-- std::bitset::to_ullong: returns the value when it fits in 64 bits and
throws std::overflow_error, modelled as none, otherwise. -/
def to_ullong (v : Nat) : Option Nat := if v < 2 ^ WORD_BITS then some v else none

/-- The chunk loop of make_bitset<N, M> (bits.hh lines 76-84): the first
count iterations of the word copy, accumulating into dst.  Iteration w
extracts chunk w of src with to_ullong (which can throw), widens it to N
bits, shifts it to position 64 * w inside bitset<N> and ORs it in. -/
def chunkCopy (N src : Nat) : Nat → Option Nat
  | 0 => some 0
  | count + 1 => do
    let dst ← chunkCopy N src count
    let chunk ← to_ullong (src >>> (count * WORD_BITS))
    pure (dst ||| (make_bitset_ull N chunk <<< (count * WORD_BITS)) % 2 ^ N)

/-- make_bitset<N, M> (bits.hh lines 49-87, identical in bit_vector.hh):
width conversion from bitset<M> to bitset<N>.  Fast path for M = N
(identity) and for M <= 64 (scalar round trip); general case copies
min(SRC_WORDS, DST_WORDS) words of 64 bits.  none models a thrown
std::overflow_error. -/
def make_bitset_bb (N M : Nat) (src : Nat) : Option Nat :=
  if M = N then some src
  else if M ≤ 64 then (to_ullong src).map (fun v => make_bitset_ull N v)
  else chunkCopy N src (min (wordCount M) (wordCount N))

/-- The doubling loop of make_bitmask (bits.hh lines 32-36), with an
explicit fuel argument bounding the number of iterations; the caller
passes fuel = w, far more than the O(log w) iterations the loop runs. -/
def maskLoop (N w : Nat) : Nat → Nat → Nat → Nat
  | 0, mask, _ => mask
  | fuel + 1, mask, n =>
    if n < w then
      maskLoop N w fuel (mask ||| ((mask <<< min n (w - n)) % 2 ^ N)) (n * 2)
    else mask

/-- make_bitmask<N>(w) (bits.hh lines 18-39, identical in bit_vector.hh):
bitset<N> with the lowest w bits set.  Fast path builds the scalar
(1 << w) - 1 for w < 64; cold path starts from the low 64 bits all set
and runs the doubling loop. -/
def make_bitmask (N w : Nat) : Nat :=
  if w < 64 then make_bitset_ull N ((1 <<< w) - 1)
  else maskLoop N w w (make_bitset_ull N (2 ^ WORD_BITS - 1)) 64

/-- std::bitset<N>::count: the number of set bits among positions 0..N-1. -/
def count_ones (N v : Nat) : Nat := List.countP (fun i => v.testBit i) (List.range N)

/-- BitSlice read, operator[] (bits.hh lines 102-104, bit_vector.hh lines
99-101): bit idx of the slice is parent bit lo + idx, read directly from
the referenced parent storage. -/
def slice_get (lo : Nat) (parent : Nat) (idx : Nat) : Bool := parent.testBit (lo + idx)

/-- BitSlice write, set(idx, value) and assignment through operator[]
(bits.hh lines 107-113, bit_vector.hh lines 104-109): sets parent bit
lo + idx to value through the bitset<N> reference. -/
def slice_set (N lo : Nat) (parent : Nat) (idx : Nat) (value : Bool) : Nat :=
  if value then parent ||| (1 <<< (lo + idx))
  else parent &&& ((2 ^ N - 1) ^^^ (1 <<< (lo + idx)))

/-- BitSlice whole-slice assignment core (bits.hh lines 117-126,
bit_vector.hh lines 113-118) applied to the already-converted rhs value
v = make_bitset<N>(rhs): data = (data & ~mask) | ((v << lo) & mask) with
mask = make_bitmask<N>(W) << lo, both shifts truncated to N bits. -/
def slice_assign (N W lo : Nat) (parent v : Nat) : Nat :=
  let rhs_bits := (v <<< lo) % 2 ^ N
  let mask := (make_bitmask N W <<< lo) % 2 ^ N
  (parent &&& ((2 ^ N - 1) ^^^ mask)) ||| (rhs_bits &&& mask)

/-- Conversion of a BitSlice<N, W> to bitset<N>, the templated conversion
operator of bits.hh lines 134-139 at M = N, whose make_bitset<N, N> call
is the identity fast path: (parent >> lo) & make_bitmask<N>(W). -/
def slice_to_parent (N W lo : Nat) (parent : Nat) : Nat :=
  (parent >>> lo) &&& make_bitmask N W

/-- Conversion of a BitSlice to bitset<M> for arbitrary M (bits.hh lines
134-139, bit_vector.hh lines 126-131): make_bitset<M>(parent >> lo),
masked with make_bitmask<M>(W).  none models a thrown exception. -/
def slice_to_bitset (N W lo M : Nat) (parent : Nat) : Option Nat :=
  (make_bitset_bb M N (parent >>> lo)).map (fun r => r &&& make_bitmask M W)

/-- Slice-from-slice assignment over one parent vector (bits.hh lines
117-126 with rhs a slice of the same parent: rhs is fully materialised by
make_bitset<N>(rhs) at line 119 before data is written at line 124). -/
def slice_assign_from_slice (N Wd dLo Ws sLo : Nat) (parent : Nat) : Nat :=
  slice_assign N Wd dLo parent (slice_to_parent N Ws sLo parent)

/-- Modelled from the spec (refinement reference, not source code): the
value of the source slice, copied into an independent temporary
Bit Vector(Ws): the low Ws bits of parent shifted right by sLo. -/
def slice_value_spec (Ws sLo : Nat) (parent : Nat) : Nat := (parent >>> sLo) % 2 ^ Ws

/-- Modelled from the spec (refinement reference, not source code): the
Width Converter contract of spec section 4.2, re-expressing an M-bit
value as N bits by zero-extension or truncation to the low N bits. -/
def convert_spec (N M : Nat) (v : Nat) : Nat := v % 2 ^ min M N

/-- Modelled from the spec (refinement reference, not source code):
assigning the destination slice from an independent temporary of width Ws
per spec section 4.4: bits = convert(tmp) << dLo, mask = ones exactly over
the range from dLo to dLo + Wd, parent = (parent & ~mask) | (bits & mask). -/
def slice_assign_via_temp (N Wd dLo Ws sLo : Nat) (parent : Nat) : Nat :=
  let tmp := slice_value_spec Ws sLo parent
  let bits := (convert_spec N Ws tmp <<< dLo) % 2 ^ N
  let mask := ((2 ^ Wd - 1) <<< dLo) % 2 ^ N
  (parent &&& ((2 ^ N - 1) ^^^ mask)) ||| (bits &&& mask)

/-- slice_hi<W>(hi) of the bits wrapper (bits.hh lines 263-271): the
offset stored in the minted BitSlice<N, W> is hi + 1 - W. -/
def slice_hi_lo (W hi : Nat) : Nat := hi + 1 - W

/-- slice_lo<W>(lo) of the bits wrapper (bits.hh lines 250-258): the
offset stored in the minted BitSlice<N, W> is lo itself. -/
def slice_lo_lo (lo : Nat) : Nat := lo

/-- Masking with a run of low ones is reduction modulo a power of two. -/
lemma and_mask_eq_mod (x m : Nat) : x &&& (2 ^ m - 1) = x % 2 ^ m := by
  apply Nat.eq_of_testBit_eq
  intro i
  rw [Nat.testBit_and, Nat.testBit_two_pow_sub_one, Nat.testBit_mod_two_pow,
    Bool.and_comm]

/-- A value below 2 ^ n has no set bit at position n or above. -/
lemma testBit_high (x n i : Nat) (hx : x < 2 ^ n) (hi : n ≤ i) :
    x.testBit i = false :=
  Nat.testBit_lt_two_pow
    (lt_of_lt_of_le hx (Nat.pow_le_pow_right (by norm_num) hi))

/-- ORing a run of m low ones with itself shifted left by s ≤ m yields a
run of m + s low ones: the two runs overlap, leaving no gap. -/
lemma ones_or_shift (m s : Nat) (h : s ≤ m) :
    (2 ^ m - 1) ||| ((2 ^ m - 1) <<< s) = 2 ^ (m + s) - 1 := by
  apply Nat.eq_of_testBit_eq
  intro i
  rw [Nat.testBit_or, Nat.testBit_shiftLeft, Nat.testBit_two_pow_sub_one,
    Nat.testBit_two_pow_sub_one, Nat.testBit_two_pow_sub_one, ← Bool.decide_and,
    ← Bool.decide_or]
  exact decide_eq_decide.mpr (by omega)

/-- One iteration of the doubling loop turns a run of min(n, w) low ones
into a run of min(2n, w) low ones. -/
lemma maskLoop_step (N w n : Nat) (h1 : n < w) (h2 : w ≤ N) :
    (2 ^ min n w - 1) ||| (((2 ^ min n w - 1) <<< min n (w - n)) % 2 ^ N) =
      2 ^ min (n * 2) w - 1 := by
  have hmn : min n w = n := by omega
  have hsn : min n (w - n) ≤ n := Nat.min_le_left _ _
  have hns : n + min n (w - n) ≤ w := by omega
  have hpos : 0 < 2 ^ min n (w - n) := Nat.pos_pow_of_pos _ (by norm_num)
  have hlt : (2 ^ n - 1) <<< min n (w - n) < 2 ^ N := by
    rw [Nat.shiftLeft_eq]
    have hb : 2 ^ n * 2 ^ min n (w - n) ≤ 2 ^ N := by
      rw [← pow_add]
      exact Nat.pow_le_pow_right (by norm_num) (by omega)
    have hm : (2 ^ n - 1) * 2 ^ min n (w - n) < 2 ^ n * 2 ^ min n (w - n) :=
      (Nat.mul_lt_mul_right hpos).mpr
        (by have := Nat.pos_pow_of_pos n (show 0 < 2 by norm_num); omega)
    omega
  rw [hmn, Nat.mod_eq_of_lt hlt, ones_or_shift _ _ hsn]
  have hexp : n + min n (w - n) = min (n * 2) w := by omega
  rw [hexp]

/-- Running the doubling loop from a run of min(n, w) low ones with
enough fuel produces the run of exactly w low ones. -/
lemma maskLoop_run (N w : Nat) (h2 : w ≤ N) :
    ∀ fuel n, 0 < n → w ≤ n + fuel →
      maskLoop N w fuel (2 ^ min n w - 1) n = 2 ^ w - 1
  | 0, n, h0, hf => by
    have hmn : min n w = w := by omega
    rw [maskLoop, hmn]
  | fuel + 1, n, h0, hf => by
    rw [maskLoop]
    by_cases h : n < w
    · rw [if_pos h, maskLoop_step N w n h h2]
      exact maskLoop_run N w h2 fuel (n * 2) (by omega) (by omega)
    · have hmn : min n w = w := by omega
      rw [if_neg h, hmn]

/-- make_bitmask produces the run of w low ones whenever w ≤ N. -/
lemma make_bitmask_eq (N w : Nat) (h : w ≤ N) : make_bitmask N w = 2 ^ w - 1 := by
  unfold make_bitmask
  by_cases hw : w < 64
  · rw [if_pos hw]
    unfold make_bitset_ull WORD_BITS
    rw [Nat.one_shiftLeft]
    apply Nat.mod_eq_of_lt
    have h1 : 2 ^ w ≤ 2 ^ min N 64 := Nat.pow_le_pow_right (by norm_num) (by omega)
    have h2 := Nat.pos_pow_of_pos w (show 0 < 2 by norm_num)
    omega
  · rw [if_neg hw]
    have hinit : make_bitset_ull N (2 ^ WORD_BITS - 1) = 2 ^ min 64 w - 1 := by
      unfold make_bitset_ull WORD_BITS
      have hm : min N 64 = 64 := by omega
      have hm2 : min 64 w = 64 := by omega
      rw [hm, hm2]
      apply Nat.mod_eq_of_lt
      have := Nat.pos_pow_of_pos 64 (show 0 < 2 by norm_num)
      omega
    rw [hinit]
    exact maskLoop_run N w h w 64 (by norm_num) (by omega)

/-- Bit characterisation of make_bitmask for w ≤ N. -/
lemma testBit_make_bitmask (N w i : Nat) (h : w ≤ N) :
    (make_bitmask N w).testBit i = decide (i < w) := by
  rw [make_bitmask_eq N w h, Nat.testBit_two_pow_sub_one]

/-- Counting the positions below w among 0..N-1 gives w when w ≤ N. -/
lemma countP_range_lt (w : Nat) :
    ∀ N, w ≤ N → List.countP (fun i => decide (i < w)) (List.range N) = w := by
  intro N
  induction N with
  | zero => intro h; simp at h; simp [h]
  | succ n ih =>
    intro h
    rw [List.range_succ, List.countP_append]
    rcases Nat.lt_or_ge w (n + 1) with hw | hw
    · have hwn : w ≤ n := by omega
      rw [ih hwn]
      have hfalse : decide (n < w) = false := by simp; omega
      simp [List.countP_cons, hfalse]
    · have hw1 : w = n + 1 := by omega
      subst hw1
      have hall : List.countP (fun i => decide (i < n + 1)) (List.range n) =
          (List.range n).length := by
        apply List.countP_eq_length.mpr
        intro a ha
        simp [List.mem_range] at ha ⊢
        omega
      have htrue : decide (n < n + 1) = true := by simp
      rw [hall, List.length_range]
      simp [List.countP_cons, htrue]

/-- The run of w low ones has population count w inside N positions. -/
lemma count_ones_pow_sub_one (N w : Nat) (h : w ≤ N) :
    count_ones N (2 ^ w - 1) = w := by
  unfold count_ones
  have hcongr : List.countP (fun i => (2 ^ w - 1).testBit i) (List.range N) =
      List.countP (fun i => decide (i < w)) (List.range N) := by
    apply List.countP_congr
    intro a _
    simp [Nat.testBit_two_pow_sub_one]
  rw [hcongr]
  exact countP_range_lt w N h

/-- C5: for every width N and every w with w ≤ N, make_bitmask N w is the
N-bit value whose bits at positions below w are all 1 and whose bits from
w up are all 0 (it equals 2 ^ w - 1, so bit i is set iff i < w), and its
population count over the N positions is exactly w; in particular w = 0
gives the all-zero value and w = N the all-one value. -/
theorem make_bitmask_spec (N w i : Nat) (h : w ≤ N) :
    make_bitmask N w = 2 ^ w - 1 ∧
    (make_bitmask N w).testBit i = decide (i < w) ∧
    count_ones N (make_bitmask N w) = w := by
  refine ⟨make_bitmask_eq N w h, testBit_make_bitmask N w i h, ?_⟩
  rw [make_bitmask_eq N w h]
  exact count_ones_pow_sub_one N w h

theorem make_bitmask_spec_witness :
    (70 : Nat) ≤ 128 ∧ make_bitmask 128 70 = 2 ^ 70 - 1 ∧
    count_ones 128 (make_bitmask 128 70) = 70 :=
  ⟨by decide, (make_bitmask_spec 128 70 0 (by decide)).1,
    (make_bitmask_spec 128 70 0 (by decide)).2.2⟩

/-- C6: the doubling loop of the mask builder slow path keeps the
accumulated mask equal to a contiguous run of low ones of length
min(n, w): one iteration ORs the mask with itself shifted left by
min(n, w - n) (which never exceeds n, so the two runs overlap and no gap
appears) and yields the run of length min(2n, w); run to completion from
such a state the loop exits with the run of exactly w ones. -/
theorem maskLoop_invariant (N w fuel n : Nat) (h0 : 0 < n) (hw : w ≤ N)
    (hf : w ≤ n + fuel) :
    (n < w →
      (2 ^ min n w - 1) ||| (((2 ^ min n w - 1) <<< min n (w - n)) % 2 ^ N) =
        2 ^ min (n * 2) w - 1) ∧
    maskLoop N w fuel (2 ^ min n w - 1) n = 2 ^ w - 1 ∧
    count_ones N (maskLoop N w fuel (2 ^ min n w - 1) n) = w := by
  refine ⟨fun h => maskLoop_step N w n h hw, maskLoop_run N w hw fuel n h0 hf, ?_⟩
  rw [maskLoop_run N w hw fuel n h0 hf]
  exact count_ones_pow_sub_one N w hw

theorem maskLoop_invariant_witness :
    maskLoop 128 70 70 (2 ^ min 64 70 - 1) 64 = 2 ^ 70 - 1 :=
  (maskLoop_invariant 128 70 70 64 (by decide) (by decide) (by decide)).2.1

/-- C10: construction of an N-bit value from an unsigned long long
scalar is total: for every N and every scalar below 2 ^ 64 the result is
the low N bits of the scalar — high scalar bits beyond N are silently
discarded when N < 64, and the result has no bits at position 64 or
above when N > 64; there is no range check or error. -/
theorem make_bitset_ull_spec (N src : Nat) (h : src < 2 ^ 64) :
    make_bitset_ull N src = src % 2 ^ N := by
  unfold make_bitset_ull WORD_BITS
  rcases le_or_lt N 64 with hN | hN
  · rw [Nat.min_eq_left hN]
  · rw [Nat.min_eq_right (by omega)]
    rw [Nat.mod_eq_of_lt h, Nat.mod_eq_of_lt]
    exact lt_of_lt_of_le h (Nat.pow_le_pow_right (by norm_num) (by omega))

theorem make_bitset_ull_spec_witness :
    make_bitset_ull 8 511 = 511 % 2 ^ 8 ∧ make_bitset_ull 8 511 = 255 :=
  ⟨make_bitset_ull_spec 8 511 (by decide), by decide⟩

/-- C9: the slice_hi factory stores the offset hi + 1 - W in the minted
slice, so for every parent value, index and bit value, the slice minted
by slice_hi with bound hi reads and writes exactly the same parent bit
as the slice minted by slice_lo at offset hi + 1 - W, and the touched
parent bit lies inside the range from hi + 1 - W to hi. -/
theorem slice_hi_equiv (N W hi idx : Nat) (parent : Nat) (value : Bool)
    (hhi : W ≤ hi + 1) (hidx : idx < W) :
    slice_hi_lo W hi = slice_lo_lo (hi + 1 - W) ∧
    slice_get (slice_hi_lo W hi) parent idx =
      slice_get (slice_lo_lo (hi + 1 - W)) parent idx ∧
    slice_set N (slice_hi_lo W hi) parent idx value =
      slice_set N (slice_lo_lo (hi + 1 - W)) parent idx value ∧
    hi + 1 - W ≤ slice_hi_lo W hi + idx ∧ slice_hi_lo W hi + idx ≤ hi := by
  refine ⟨rfl, rfl, rfl, ?_, ?_⟩ <;> unfold slice_hi_lo <;> omega

theorem slice_hi_equiv_witness :
    slice_get (slice_hi_lo 49 198) (2 ^ 170) 20 =
      slice_get (slice_lo_lo 150) (2 ^ 170) 20 :=
  (slice_hi_equiv 199 49 198 20 (2 ^ 170) true (by decide) (by decide)).2.1

/-- C1: the general case of make_bitset (M = 128 > 64, N = 192 ≠ M) does
not extract the first 64-bit chunk by truncation: on the source 2 ^ 64
(bit 64 set) the call to to_ullong inside the chunk loop throws
std::overflow_error (modelled as none), while the claimed result, the
low min(M, N) bits of the source zero-extended to N bits, is 2 ^ 64. -/
theorem make_bitset_chunked_throws :
    make_bitset_bb 192 128 (2 ^ 64) = none ∧
    convert_spec 192 128 (2 ^ 64) = 2 ^ 64 := by
  constructor <;> decide

/-- C2: width conversion is not exception-free on in-contract inputs:
converting the valid bitset<128> value 2 ^ 64 to width 65 throws
(modelled as none) instead of completing normally. -/
theorem conversion_not_total : (make_bitset_bb 65 128 (2 ^ 64)).isNone = true := by
  decide

/-- C7: whole-slice read does not hold for every parent value: the
80-bit slice at offset 0 of a 128-bit parent, read to target width
M = 80, throws (modelled as none) when the parent is 2 ^ 64 — a bit set
inside the slice range — instead of yielding the slice value. -/
theorem slice_read_throws : slice_to_bitset 128 80 0 80 (2 ^ 64) = none := by
  decide

/-- C3: whole-slice assignment over positions lo..lo+W-1 of an N-bit
parent changes only those positions: for every converted source value v
(which covers scalar, bit-vector and slice sources, including a source
aliasing the same parent) and every position i outside the range, bit i
of the parent is identical before and after the update. -/
theorem slice_assign_frame (N W lo parent v i : Nat)
    (hb : lo + W ≤ N) (hp : parent < 2 ^ N) (hi : i < lo ∨ lo + W ≤ i) :
    (slice_assign N W lo parent v).testBit i = parent.testBit i := by
  have hW : W ≤ N := by omega
  have hlt : make_bitmask N W <<< lo < 2 ^ N := by
    rw [make_bitmask_eq N W hW, Nat.shiftLeft_eq]
    have hb2 : 2 ^ W * 2 ^ lo ≤ 2 ^ N := by
      rw [← pow_add]
      exact Nat.pow_le_pow_right (by norm_num) (by omega)
    have hpos : 0 < 2 ^ lo := Nat.pos_pow_of_pos _ (by norm_num)
    have hm : (2 ^ W - 1) * 2 ^ lo < 2 ^ W * 2 ^ lo :=
      (Nat.mul_lt_mul_right hpos).mpr
        (by have := Nat.pos_pow_of_pos W (show 0 < 2 by norm_num); omega)
    omega
  have hmb : ((make_bitmask N W <<< lo) % 2 ^ N).testBit i = false := by
    rw [Nat.mod_eq_of_lt hlt, Nat.testBit_shiftLeft,
      testBit_make_bitmask N W (i - lo) hW, ← Bool.decide_and]
    simp only [decide_eq_false_iff_not]
    omega
  simp only [slice_assign]
  rw [Nat.testBit_or, Nat.testBit_and, Nat.testBit_and, Nat.testBit_xor, hmb,
    Nat.testBit_two_pow_sub_one]
  rcases lt_or_ge i N with h | h
  · have hd : decide (i < N) = true := by simp [h]
    simp [hd]
  · have h1 : parent.testBit i = false := testBit_high parent N i hp h
    have hd : decide (i < N) = false := by simp; omega
    simp [h1, hd]

theorem slice_assign_frame_witness :
    (slice_assign 128 64 0 (2 ^ 127 + 5) 3735928559).testBit 127 =
      (2 ^ 127 + 5).testBit 127 :=
  slice_assign_frame 128 64 0 (2 ^ 127 + 5) 3735928559 127 (by decide) (by decide)
    (Or.inr (by decide))

/-- C4: assigning a destination slice (offset dLo, width Wd) from a
possibly overlapping source slice (offset sLo, width Ws) of the same
parent produces exactly the parent obtained by first copying the source
slice value into an independent temporary and then assigning the
destination from that temporary: the source is fully materialised from
the pre-write parent before any destination bit changes. -/
theorem slice_assign_alias (N Wd dLo Ws sLo parent : Nat)
    (hd : dLo + Wd ≤ N) (hs : sLo + Ws ≤ N) :
    slice_assign_from_slice N Wd dLo Ws sLo parent =
      slice_assign_via_temp N Wd dLo Ws sLo parent := by
  simp only [slice_assign_from_slice, slice_assign, slice_to_parent,
    slice_assign_via_temp, slice_value_spec, convert_spec]
  rw [make_bitmask_eq N Ws (by omega), make_bitmask_eq N Wd (by omega),
    and_mask_eq_mod]
  have hmin : min Ws N = Ws := by omega
  rw [hmin, Nat.mod_mod_of_dvd _ dvd_rfl]

theorem slice_assign_alias_witness :
    slice_assign_from_slice 128 41 0 41 40 (2 ^ 80 + 2 ^ 45 + 3) =
      slice_assign_via_temp 128 41 0 41 40 (2 ^ 80 + 2 ^ 45 + 3) :=
  slice_assign_alias 128 41 0 41 40 (2 ^ 80 + 2 ^ 45 + 3) (by decide) (by decide)

/-- C8: slice bit access is live and uncached: reading bit idx of a slice
at offset lo returns bit lo + idx of the current parent value, whatever
mutations produced that value, and writing value into bit idx updates
exactly parent bit lo + idx — bit j of the updated parent is the written
value when j = lo + idx and the previous bit j otherwise. -/
theorem slice_bit_access (N W lo idx j parent : Nat) (value : Bool)
    (h1 : idx < W) (h2 : lo + W ≤ N) (hp : parent < 2 ^ N) :
    slice_get lo parent idx = parent.testBit (lo + idx) ∧
    (slice_set N lo parent idx value).testBit j =
      (if j = lo + idx then value else parent.testBit j) := by
  refine ⟨rfl, ?_⟩
  have hk : lo + idx < N := by omega
  cases value with
  | true =>
    have hset : slice_set N lo parent idx true = parent ||| (1 <<< (lo + idx)) := rfl
    rw [hset, Nat.one_shiftLeft, Nat.testBit_or]
    by_cases hj : j = lo + idx
    · subst hj
      simp [Nat.testBit_two_pow]
    · have hb : (2 ^ (lo + idx)).testBit j = false := by
        simp [Nat.testBit_two_pow]
        omega
      simp [hb, hj]
  | false =>
    have hset : slice_set N lo parent idx false =
        parent &&& ((2 ^ N - 1) ^^^ (1 <<< (lo + idx))) := rfl
    rw [hset, Nat.one_shiftLeft, Nat.testBit_and, Nat.testBit_xor,
      Nat.testBit_two_pow_sub_one]
    by_cases hj : j = lo + idx
    · subst hj
      simp [Nat.testBit_two_pow, hk]
    · by_cases hjN : j < N
      · have hb : (2 ^ (lo + idx)).testBit j = false := by
          simp [Nat.testBit_two_pow]
          omega
        simp [hb, hj, hjN]
      · have hpb : parent.testBit j = false :=
          testBit_high parent N j hp (by omega)
        simp [hpb, hj]

theorem slice_bit_access_witness :
    slice_get 2 170 1 = Nat.testBit 170 (2 + 1) ∧
    (slice_set 8 2 170 1 true).testBit 3 =
      (if 3 = 2 + 1 then true else Nat.testBit 170 3) :=
  slice_bit_access 8 4 2 1 3 170 true (by decide) (by decide) (by decide)
